import Mathlib

/-!
Shallow embedding of the `code-watch` (eis) reconciliation engine
(`src/main.rs`, `src/summary.rs`).

The version-control engine (libgit2) is modelled explicitly:
* object identities are content-addressed for trees (a `TreeId` is the
  canonical sorted entry list, so identical content gives identical
  identity, as for git tree oids) and allocation-addressed for commits
  (a fresh `CommitId` per created commit object);
* `merge_base` is modelled by ancestor-set saturation over the commit
  graph, returning `b` exactly when `b` is a common ancestor of `a` and
  `b` (git returns the best common ancestor, which is `b` itself whenever
  `b` is reachable from `a`), and an error when there is no common
  ancestor;
* fallible engine operations return `Except`; panics (`unwrap`) inside
  the watcher are modelled as errors, since either way the cycle does not
  continue.  The two process-level constructs the claims mention are
  modelled by their observable control decisions: `daemonStep` for one
  iteration of the daemon loop body (`watcher.watch()?`), and
  `ctrlcHandler` for the interrupt handler (`watch().unwrap();
  process::exit(0)`), whose panic on a failed final cycle happens on the
  handler thread before the exit call is reached.
-/

namespace CodeWatch

abbrev Path := String
abbrev FileContent := String
abbrev Entry := Path × FileContent

/-- A git tree identity: content-addressed, so we identify it with the
canonical (sorted) list of staged entries. Same content, same identity. -/
abbrev TreeId := List Entry

abbrev CommitId := Nat

structure Signature where
  name : String
  email : String
deriving DecidableEq, Repr

structure Commit where
  tree : TreeId
  parents : List CommitId
  author : Signature
  committer : Signature
  message : String
deriving DecidableEq, Repr

inductive GitError where
  | unbornHead
  | commitNotFound
  | treeNotFound
  | mergeBaseNotFound
  | noSignature
  | objectWriteFailed
  | refUpdateFailed
deriving DecidableEq, Repr

/-- The repository state visible to the watcher: the object store
(`commits`, `treeStore`), the references (`headTarget` for HEAD,
`eisHead` for the EIS_HEAD shadow pointer, `branches` for the user's
branch refs), the user's real index, the on-disk ephemeral index file
`.git/eis-index`, the trackable (non-ignored) working-directory content,
the configured signature, and two flags modelling object-store /
ref-update failures (`ObjectStoreFailure` conditions). -/
structure Repo where
  commits : List (CommitId × Commit)
  treeStore : List TreeId
  nextId : CommitId
  headTarget : Option CommitId
  eisHead : Option CommitId
  userIndex : List Entry
  eisIndexFile : List Entry
  workdir : List Entry
  branches : List (String × CommitId)
  sig : Option Signature
  odbFails : Bool
  refUpdateFails : Bool
deriving DecidableEq, Repr

/-- All commit ids stored in the object store are below the allocation
counter, so the next allocated id is fresh. -/
def Repo.fresh (r : Repo) : Prop :=
  ∀ p ∈ r.commits, p.1 < r.nextId

instance (r : Repo) : Decidable r.fresh := by
  unfold Repo.fresh
  infer_instance

/-! ### The merge-base capability (libgit2 `merge_base`) -/

def parentsOf (g : List (CommitId × Commit)) (c : CommitId) : List CommitId :=
  match g.lookup c with
  | some cm => cm.parents
  | none => []

/-- One saturation step of the ancestor set: keep everything and add all
parents of everything. -/
def ancStep (g : List (CommitId × Commit)) (s : List CommitId) : List CommitId :=
  s ++ s.flatMap (fun c => parentsOf g c)

def iterAnc (g : List (CommitId × Commit)) : Nat → List CommitId → List CommitId
  | 0, s => s
  | n + 1, s => iterAnc g n (ancStep g s)

/-- The set of ancestors of `c` (including `c` itself), computed by
saturating parent steps; `g.length + 1` rounds reach every ancestor since
acyclic ancestor chains are no longer than the number of stored commits. -/
def ancestors (g : List (CommitId × Commit)) (c : CommitId) : List CommitId :=
  iterAnc g (g.length + 1) [c]

/-- The common ancestors of `a` and `b`. -/
def commonAncestors (g : List (CommitId × Commit)) (a b : CommitId) : List CommitId :=
  (ancestors g a).filter (fun c => (ancestors g b).contains c)

/-- Model of libgit2 `merge_base a b`: a best common ancestor. It is `b`
itself exactly when `b` is a common ancestor (i.e. reachable from `a`),
which is the only observation the watcher makes of the result. Errors
when there is no common ancestor. -/
def mergeBase (g : List (CommitId × Commit)) (a b : CommitId) : Except GitError CommitId :=
  if (commonAncestors g a b).contains b then .ok b
  else if (commonAncestors g a b).contains a then .ok a
  else
    match commonAncestors g a b with
    | [] => .error .mergeBaseNotFound
    | c :: _ => .ok c

/-! ### Watcher operations (`src/main.rs`) -/

/-- `Watcher::get_eis_head`: `find_reference(EIS_HEAD)` target, `None`
when the reference does not exist. -/
def getEisHead (r : Repo) : Option CommitId := r.eisHead

/-- `self.repo.head()?.target()`: errors on an unborn HEAD. -/
def resolveHead (r : Repo) : Except GitError CommitId :=
  match r.headTarget with
  | some h => .ok h
  | none => .error .unbornHead

/-- `self.repo.find_commit(id)?`. -/
def findCommit (r : Repo) (id : CommitId) : Except GitError Commit :=
  match r.commits.lookup id with
  | some c => .ok c
  | none => .error .commitNotFound

/-- `self.repo.find_tree(t)?`. -/
def findTree (r : Repo) (t : TreeId) : Except GitError TreeId :=
  if r.treeStore.contains t then .ok t else .error .treeNotFound

/-- `self.repo.signature()?`. -/
def signature (r : Repo) : Except GitError Signature :=
  match r.sig with
  | some s => .ok s
  | none => .error .noSignature

/-- `Watcher::check_if_eis_head_is_up_to_date`: HEAD resolved, then
`merge_base(eis_head, head) == head`; each `?` propagates its error. -/
def checkIfEisHeadIsUpToDate (r : Repo) (eisHead : CommitId) : Except GitError Bool :=
  match resolveHead r with
  | .error e => .error e
  | .ok head =>
    match mergeBase r.commits eisHead head with
    | .error e => .error e
    | .ok mb => .ok (mb == head)

/-- `Watcher::create_eis_head`: repoints (force-creates) EIS_HEAD at the
checked-out HEAD commit and returns that id. -/
def createEisHead (r : Repo) : (Except GitError CommitId) × Repo :=
  match resolveHead r with
  | .error e => (.error e, r)
  | .ok h => (.ok h, { r with eisHead := some h })

/-- `index.add_all(["*"])` on the ephemeral index: adds or updates an
entry for every trackable working-directory file; pre-existing index
entries whose path is not in the working directory are kept (`add_all`
never removes entries). -/
def addAll (index workdir : List Entry) : List Entry :=
  index.filter (fun e => (workdir.lookup e.1).isNone) ++ workdir

def insertEntry (e : Entry) : List Entry → List Entry
  | [] => [e]
  | x :: xs => if e.1 ≤ x.1 then e :: x :: xs else x :: insertEntry e xs

/-- `index.write_tree()`: the content-addressed identity of the staged
set, i.e. its canonical sorted form. -/
def canonTree (l : List Entry) : TreeId :=
  l.foldr insertEntry []

/-- `Watcher::create_tree`: open the ephemeral index `.git/eis-index`,
`set_index`, `add_all`; if empty return `None`; else `write_tree`, then
`clear` + `write` (persisting an empty index file). Writing a tree that
already exists in the content-addressed store is a no-op. -/
def createTree (r : Repo) : (Except GitError (Option TreeId)) × Repo :=
  if r.odbFails then (.error .objectWriteFailed, r)
  else if (addAll r.eisIndexFile r.workdir).isEmpty then (.ok none, r)
  else
    (.ok (some (canonTree (addAll r.eisIndexFile r.workdir))),
     { r with
       treeStore :=
         if r.treeStore.contains (canonTree (addAll r.eisIndexFile r.workdir)) then r.treeStore
         else canonTree (addAll r.eisIndexFile r.workdir) :: r.treeStore,
       eisIndexFile := [] })

/-- `repo.commit(Some(EIS_HEAD), sig, sig, msg, tree, parents)`: libgit2
writes the commit object into the object store first, then updates the
named reference. A failing object write changes nothing; a failing ref
update leaves the object written but the reference untouched. -/
def gitCommit (r : Repo) (author committer : Signature) (message : String)
    (tree : TreeId) (parents : List CommitId) : (Except GitError CommitId) × Repo :=
  if r.odbFails then (.error .objectWriteFailed, r)
  else if r.refUpdateFails then
    (.error .refUpdateFailed,
     { r with
       commits := (r.nextId, ⟨tree, parents, author, committer, message⟩) :: r.commits,
       nextId := r.nextId + 1 })
  else
    (.ok r.nextId,
     { r with
       commits := (r.nextId, ⟨tree, parents, author, committer, message⟩) :: r.commits,
       nextId := r.nextId + 1,
       eisHead := some r.nextId })

/-- `Watcher::commit_tree`: find tree, find parent commit, signature,
then commit with update-ref EIS_HEAD, one parent, fixed message. -/
def commitTree (r : Repo) (tree : TreeId) (parent : CommitId) : (Except GitError CommitId) × Repo :=
  match findTree r tree with
  | .error e => (.error e, r)
  | .ok t =>
    match findCommit r parent with
    | .error e => (.error e, r)
    | .ok _ =>
      match signature r with
      | .error e => (.error e, r)
      | .ok s => gitCommit r s s "eis commit" t [parent]

/-- The first phase of `Watcher::watch`: resolve EIS_HEAD; keep it when
the up-to-date check passes, otherwise (absent or inconsistent) repoint
it at HEAD; the `?` on the check propagates its error. -/
def repairPhase (r : Repo) : (Except GitError CommitId) × Repo :=
  match getEisHead r with
  | some eh =>
    match checkIfEisHeadIsUpToDate r eh with
    | .error e => (.error e, r)
    | .ok true => (.ok eh, r)
    | .ok false => createEisHead r
  | none => createEisHead r

/-- The tail of `Watcher::watch` once a snapshot tree exists: load the
commit EIS_HEAD references, compare its tree with the snapshot tree, and
commit exactly when they differ. -/
def compareAndCommit (r2 : Repo) (eisHead : CommitId) (tree : TreeId) :
    (Except GitError Unit) × Repo :=
  match findCommit r2 eisHead with
  | .error e => (.error e, r2)
  | .ok c =>
    if tree = c.tree then (.ok (), r2)
    else
      match commitTree r2 tree eisHead with
      | (.error e, r3) => (.error e, r3)
      | (.ok _, r3) => (.ok (), r3)

/-- `if let Some(tree) = self.create_tree()? { ... }`: no snapshot tree
means no comparison and no commit this cycle. -/
def snapshotPhase (r1 : Repo) (eisHead : CommitId) : (Except GitError Unit) × Repo :=
  match createTree r1 with
  | (.error e, r2) => (.error e, r2)
  | (.ok none, r2) => (.ok (), r2)
  | (.ok (some tree), r2) => compareAndCommit r2 eisHead tree

/-- `Watcher::watch`: repair phase, then snapshot and conditional
commit. -/
def watch (r : Repo) : (Except GitError Unit) × Repo :=
  match repairPhase r with
  | (.error e, r1) => (.error e, r1)
  | (.ok eisHead, r1) => snapshotPhase r1 eisHead

/-! ### Daemon loop and interrupt handler (`daemon` in `src/main.rs`) -/

inductive LoopDecision where
  | continueLoop (r : Repo)
  | exitDaemon (e : GitError) (r : Repo)
deriving DecidableEq, Repr

/-- One iteration of the daemon loop body: `interval.tick().await;
watcher.watch()?` — an `Ok` cycle continues the loop, an `Err` cycle
propagates out of `daemon`, ending the process. -/
def daemonStep (r : Repo) : LoopDecision :=
  match watch r with
  | (.ok _, r1) => .continueLoop r1
  | (.error e, r1) => .exitDaemon e r1

/-- Running the daemon loop for `n` ticks, stopping early when a cycle
fails (the `?` propagates the error out of the loop). -/
def runCycles : Nat → Repo → (Except GitError Unit) × Repo
  | 0, r => (.ok (), r)
  | n + 1, r =>
    match watch r with
    | (.ok _, r1) => runCycles n r1
    | (.error e, r1) => (.error e, r1)

inductive HandlerOutcome where
  | exited (code : Nat) (r : Repo)
  | panicked (r : Repo)
deriving DecidableEq, Repr

/-- The ctrl-c handler body: `watcher.watch().unwrap(); process::exit(0)`.
It runs exactly one synchronous cycle; on success it exits the process
with status 0; on failure the `unwrap` panics on the handler thread, so
`process::exit(0)` is never reached (a panic on a non-main thread does
not terminate the process). -/
def ctrlcHandler (r : Repo) : HandlerOutcome :=
  match watch r with
  | (.ok _, r1) => .exited 0 r1
  | (.error _, r1) => .panicked r1

/-! ### History summarizer (`src/summary.rs`) -/

/-- The parent index `summarize` follows: the second parent when the
commit has more than one parent, else the sole parent. -/
def chosenParentIndex (c : Commit) : Nat :=
  if c.parents.length > 1 then 1 else 0

/-- `commit.parent(i)?`: resolve the `i`-th parent id and look the parent
commit up in the object store; errors when the index is out of range
(in particular on a parentless root commit) or the object is missing. -/
def parentCommit (r : Repo) (c : Commit) (i : Nat) : Except GitError (CommitId × Commit) :=
  match c.parents.get? i with
  | none => .error .commitNotFound
  | some pid =>
    match r.commits.lookup pid with
    | some pc => .ok (pid, pc)
    | none => .error .commitNotFound

/-- The `for _ in 0..10` loop of `summarize`: at each iteration resolve
the chosen parent (erroring out like the `?` in the source), record the
current commit id as rendered, and step to the parent. Returns the
sequence of rendered commit ids. -/
def summarizeWalk (r : Repo) : Nat → CommitId → Commit → Except GitError (List CommitId)
  | 0, _, _ => .ok []
  | n + 1, cid, c =>
    match parentCommit r c (chosenParentIndex c) with
    | .error e => .error e
    | .ok (pid, pc) =>
      match summarizeWalk r n pid pc with
      | .error e => .error e
      | .ok rest => .ok (cid :: rest)

/-- `Watcher::summarize`: no shadow pointer prints a hint and returns Ok
with no walk; otherwise look up the EIS_HEAD commit and walk 10 steps.
Purely read-only: the repository state is returned unchanged. -/
def summarize (r : Repo) : (Except GitError (List CommitId)) × Repo :=
  match r.eisHead with
  | none => (.ok [], r)
  | some eh =>
    match r.commits.lookup eh with
    | none => (.error .commitNotFound, r)
    | some c => (summarizeWalk r 10 eh c, r)

/-- The position of the walk after `k` successful steps from a commit. -/
def reachAfter (r : Repo) : Nat → CommitId → Commit → Except GitError (CommitId × Commit)
  | 0, cid, c => .ok (cid, c)
  | k + 1, _, c =>
    match parentCommit r c (chosenParentIndex c) with
    | .error e => .error e
    | .ok (pid, pc) => reachAfter r k pid pc

/-- One backward step of the rendered sequence is correct: `b` is the
chosen parent of `a`'s commit. -/
def stepOk (r : Repo) (a b : CommitId) : Bool :=
  match r.commits.lookup a with
  | some c => c.parents.get? (chosenParentIndex c) == some b
  | none => false

/-- The rendered sequence follows the parent-choice rule between every
two adjacent ids. -/
def chainOk (r : Repo) : List CommitId → Bool
  | [] => true
  | [_] => true
  | a :: b :: t => stepOk r a b && chainOk r (b :: t)

/-! ### Helper lemmas: list membership and lookup -/

theorem contains_iff_mem {α : Type} [BEq α] [LawfulBEq α] {l : List α} {a : α} :
    l.contains a = true ↔ a ∈ l := by
  simp [List.contains]

theorem lookup_mem {l : List (CommitId × Commit)} {k : CommitId} {v : Commit}
    (h : l.lookup k = some v) : (k, v) ∈ l := by
  induction l with
  | nil => simp [List.lookup] at h
  | cons p t ih =>
    obtain ⟨pk, pv⟩ := p
    rw [List.lookup] at h
    split at h
    next heq =>
      have hk : k = pk := by simpa using heq
      subst hk
      injection h with hv
      subst hv
      exact List.mem_cons_self _ _
    next heq =>
      exact List.mem_cons_of_mem _ (ih h)

theorem fresh_lookup {r : Repo} (hf : r.fresh) : r.commits.lookup r.nextId = none := by
  cases h : r.commits.lookup r.nextId with
  | none => rfl
  | some v =>
    have := hf _ (lookup_mem h)
    simp at this

/-! ### Helper lemmas: ancestor saturation and merge base -/

theorem subset_ancStep {g : List (CommitId × Commit)} {s : List CommitId} : s ⊆ ancStep g s :=
  fun _ hx => List.mem_append_left _ hx

theorem ancStep_mono {g : List (CommitId × Commit)} {s t : List CommitId} (h : s ⊆ t) :
    ancStep g s ⊆ ancStep g t := by
  intro x hx
  rcases List.mem_append.mp hx with h1 | h2
  · exact List.mem_append_left _ (h h1)
  · rcases List.mem_flatMap.mp h2 with ⟨c, hc, hx2⟩
    exact List.mem_append_right _ (List.mem_flatMap.mpr ⟨c, h hc, hx2⟩)

theorem ancStep_graph_mono {g g' : List (CommitId × Commit)}
    (hg : ∀ c, parentsOf g c ⊆ parentsOf g' c) {s : List CommitId} :
    ancStep g s ⊆ ancStep g' s := by
  intro x hx
  rcases List.mem_append.mp hx with h1 | h2
  · exact List.mem_append_left _ h1
  · rcases List.mem_flatMap.mp h2 with ⟨c, hc, hx2⟩
    exact List.mem_append_right _ (List.mem_flatMap.mpr ⟨c, hc, hg c hx2⟩)

theorem iterAnc_mono {g : List (CommitId × Commit)} {n : Nat} :
    ∀ {s t : List CommitId}, s ⊆ t → iterAnc g n s ⊆ iterAnc g n t := by
  induction n with
  | zero => intro s t h; simpa [iterAnc] using h
  | succ n ih => intro s t h; simp only [iterAnc]; exact ih (ancStep_mono h)

theorem subset_iterAnc {g : List (CommitId × Commit)} {n : Nat} :
    ∀ {s : List CommitId}, s ⊆ iterAnc g n s := by
  induction n with
  | zero => intro s; simp [iterAnc]
  | succ n ih => intro s; simp only [iterAnc]; exact List.Subset.trans subset_ancStep ih

theorem iterAnc_graph_mono {g g' : List (CommitId × Commit)}
    (hg : ∀ c, parentsOf g c ⊆ parentsOf g' c) {n : Nat} :
    ∀ {s : List CommitId}, iterAnc g n s ⊆ iterAnc g' n s := by
  induction n with
  | zero => intro s; simp [iterAnc]
  | succ n ih =>
    intro s
    simp only [iterAnc]
    exact List.Subset.trans ih (iterAnc_mono (ancStep_graph_mono hg))

theorem mem_ancestors_self {g : List (CommitId × Commit)} {c : CommitId} : c ∈ ancestors g c :=
  subset_iterAnc (List.mem_singleton.mpr rfl)

theorem mem_ancestors_parent {g : List (CommitId × Commit)} {c : CommitId} {cm : Commit}
    {p : CommitId} (hl : g.lookup c = some cm) (hp : p ∈ cm.parents) : p ∈ ancestors g c := by
  show p ∈ iterAnc g (g.length + 1) [c]
  have h1 : p ∈ ancStep g [c] := by
    apply List.mem_append_right
    refine List.mem_flatMap.mpr ⟨c, List.mem_singleton.mpr rfl, ?_⟩
    simpa [parentsOf, hl] using hp
  have h2 : p ∈ iterAnc g g.length (ancStep g [c]) := subset_iterAnc h1
  exact h2

theorem mergeBase_of_mem {g : List (CommitId × Commit)} {a b : CommitId}
    (h : b ∈ ancestors g a) : mergeBase g a b = .ok b := by
  have hb : b ∈ commonAncestors g a b :=
    List.mem_filter.mpr ⟨h, contains_iff_mem.mpr mem_ancestors_self⟩
  unfold mergeBase
  rw [if_pos (contains_iff_mem.mpr hb)]

theorem mergeBase_self {g : List (CommitId × Commit)} {h : CommitId} :
    mergeBase g h h = .ok h :=
  mergeBase_of_mem mem_ancestors_self

theorem mem_of_mergeBase_ok {g : List (CommitId × Commit)} {a b : CommitId}
    (hmb : mergeBase g a b = .ok b) : b ∈ ancestors g a := by
  by_cases h1 : (commonAncestors g a b).contains b = true
  · exact (List.mem_filter.mp (contains_iff_mem.mp h1)).1
  · exfalso
    unfold mergeBase at hmb
    rw [if_neg h1] at hmb
    by_cases h2 : (commonAncestors g a b).contains a = true
    · rw [if_pos h2] at hmb
      injection hmb with hab
      exact h1 (hab ▸ h2)
    · rw [if_neg h2] at hmb
      cases hc : commonAncestors g a b with
      | nil => rw [hc] at hmb; exact Except.noConfusion hmb
      | cons c rest =>
        rw [hc] at hmb
        injection hmb with hcb
        have hm : c ∈ commonAncestors g a b := by
          rw [hc]; exact List.mem_cons_self _ _
        rw [hcb] at hm
        exact h1 (contains_iff_mem.mpr hm)

/-! ### Helper lemmas: the watch phases -/

theorem check_true_iff {r : Repo} {e : CommitId} :
    checkIfEisHeadIsUpToDate r e = .ok true ↔
      ∃ h, resolveHead r = .ok h ∧ mergeBase r.commits e h = .ok h := by
  unfold checkIfEisHeadIsUpToDate
  cases hh : resolveHead r with
  | error er => simp
  | ok hd =>
    cases hmb : mergeBase r.commits e hd with
    | error er => simp [hmb]
    | ok mb => simp [hmb]

theorem createEisHead_ok {r : Repo} {eh : CommitId} {r1 : Repo}
    (h : createEisHead r = (.ok eh, r1)) :
    resolveHead r = .ok eh ∧ r1 = { r with eisHead := some eh } := by
  unfold createEisHead at h
  split at h
  next e hh => simp at h
  next hd hh =>
    have h1 := congrArg Prod.fst h
    have h2 := congrArg Prod.snd h
    injection h1 with h1
    subst h1
    exact ⟨hh, h2.symm⟩

theorem repair_spec {r : Repo} {eh : CommitId} {r1 : Repo}
    (h : repairPhase r = (.ok eh, r1)) :
    (r.eisHead = some eh ∧ checkIfEisHeadIsUpToDate r eh = .ok true ∧ r1 = r) ∨
    (resolveHead r = .ok eh ∧ r1 = { r with eisHead := some eh }) := by
  unfold repairPhase getEisHead at h
  split at h
  next e0 hg =>
    split at h
    next e hc => simp at h
    next hc =>
      have h1 := congrArg Prod.fst h
      have h2 := congrArg Prod.snd h
      injection h1 with h1
      subst h1
      exact Or.inl ⟨hg, hc, h2.symm⟩
    next hc => exact Or.inr (createEisHead_ok h)
  next hg => exact Or.inr (createEisHead_ok h)

theorem repair_frame {r : Repo} {eh : CommitId} {r1 : Repo}
    (h : repairPhase r = (.ok eh, r1)) :
    r1.eisHead = some eh ∧ r1.commits = r.commits ∧ r1.headTarget = r.headTarget ∧
    r1.workdir = r.workdir ∧ r1.eisIndexFile = r.eisIndexFile ∧ r1.treeStore = r.treeStore ∧
    r1.sig = r.sig ∧ r1.odbFails = r.odbFails ∧ r1.refUpdateFails = r.refUpdateFails ∧
    r1.nextId = r.nextId ∧ r1.userIndex = r.userIndex ∧ r1.branches = r.branches := by
  rcases repair_spec h with ⟨he, _, rfl⟩ | ⟨_, rfl⟩
  · exact ⟨he, rfl, rfl, rfl, rfl, rfl, rfl, rfl, rfl, rfl, rfl, rfl⟩
  · exact ⟨rfl, rfl, rfl, rfl, rfl, rfl, rfl, rfl, rfl, rfl, rfl, rfl⟩

theorem repair_mergeBase {r : Repo} {eh : CommitId} {r1 : Repo}
    (h : repairPhase r = (.ok eh, r1)) :
    ∃ hd, resolveHead r = .ok hd ∧ mergeBase r.commits eh hd = .ok hd := by
  rcases repair_spec h with ⟨_, hc, _⟩ | ⟨hh, _⟩
  · exact check_true_iff.mp hc
  · exact ⟨eh, hh, mergeBase_self⟩

theorem addAll_nil_left {w : List Entry} : addAll [] w = w := by
  simp [addAll]

theorem addAll_eq_nil {i w : List Entry} (h : addAll i w = []) : i = [] ∧ w = [] := by
  unfold addAll at h
  rcases List.append_eq_nil.mp h with ⟨hf, hw⟩
  subst hw
  refine ⟨?_, rfl⟩
  have hself : i.filter (fun e => ((([] : List Entry).lookup e.1)).isNone) = i := by
    apply List.filter_eq_self.mpr
    intro x _
    simp [List.lookup]
  rw [hself] at hf
  exact hf

theorem createTree_ok {r : Repo} {res : Option TreeId} {r2 : Repo}
    (h : createTree r = (.ok res, r2)) :
    r.odbFails = false ∧
    ((res = none ∧ r2 = r ∧ addAll r.eisIndexFile r.workdir = []) ∨
     (res = some (canonTree (addAll r.eisIndexFile r.workdir)) ∧
      addAll r.eisIndexFile r.workdir ≠ [] ∧
      r2 = { r with
             treeStore :=
               if r.treeStore.contains (canonTree (addAll r.eisIndexFile r.workdir)) then
                 r.treeStore
               else canonTree (addAll r.eisIndexFile r.workdir) :: r.treeStore,
             eisIndexFile := [] })) := by
  unfold createTree at h
  split at h
  next ho => simp at h
  next ho =>
    refine ⟨by simpa using ho, ?_⟩
    split at h
    next he =>
      have h1 := congrArg Prod.fst h
      have h2 := congrArg Prod.snd h
      injection h1 with h1
      exact Or.inl ⟨h1.symm, h2.symm, by simpa [List.isEmpty_iff] using he⟩
    next he =>
      have h1 := congrArg Prod.fst h
      have h2 := congrArg Prod.snd h
      injection h1 with h1
      exact Or.inr ⟨h1.symm, by simpa [List.isEmpty_iff] using he, h2.symm⟩

theorem createTree_frame {r : Repo} {q : Except GitError (Option TreeId)} {r2 : Repo}
    (h : createTree r = (q, r2)) :
    r2.commits = r.commits ∧ r2.eisHead = r.eisHead ∧ r2.headTarget = r.headTarget ∧
    r2.workdir = r.workdir ∧ r2.userIndex = r.userIndex ∧ r2.branches = r.branches ∧
    r2.sig = r.sig ∧ r2.odbFails = r.odbFails ∧ r2.refUpdateFails = r.refUpdateFails ∧
    r2.nextId = r.nextId := by
  unfold createTree at h
  split at h
  next ho =>
    have h2 : r = r2 := congrArg Prod.snd h
    subst h2
    exact ⟨rfl, rfl, rfl, rfl, rfl, rfl, rfl, rfl, rfl, rfl⟩
  next ho =>
    split at h
    next he =>
      have h2 : r = r2 := congrArg Prod.snd h
      subst h2
      exact ⟨rfl, rfl, rfl, rfl, rfl, rfl, rfl, rfl, rfl, rfl⟩
    next he =>
      have h2 := congrArg Prod.snd h
      subst h2
      exact ⟨rfl, rfl, rfl, rfl, rfl, rfl, rfl, rfl, rfl, rfl⟩

theorem commitTree_ok {r : Repo} {t : TreeId} {p : CommitId} {id : CommitId} {r3 : Repo}
    (h : commitTree r t p = (.ok id, r3)) :
    ∃ s, signature r = .ok s ∧ id = r.nextId ∧
      r3 = { r with
             commits := (r.nextId, ⟨t, [p], s, s, "eis commit"⟩) :: r.commits,
             nextId := r.nextId + 1,
             eisHead := some r.nextId } := by
  unfold commitTree at h
  split at h
  next e hft => simp at h
  next t2 hft =>
    have ht2 : t2 = t := by
      unfold findTree at hft
      split at hft
      · injection hft with h1; exact h1.symm
      · exact Except.noConfusion hft
    subst ht2
    split at h
    next e hfc => simp at h
    next pc hfc =>
      split at h
      next e hs => simp at h
      next s hs =>
        unfold gitCommit at h
        split at h
        next ho => simp at h
        next ho =>
          split at h
          next hrf => simp at h
          next hrf =>
            have h1 := congrArg Prod.fst h
            have h2 := congrArg Prod.snd h
            injection h1 with h1
            exact ⟨s, hs, h1.symm, h2.symm⟩

theorem commitTree_error_eisHead {r : Repo} {t : TreeId} {p : CommitId} {e : GitError}
    {r3 : Repo} (h : commitTree r t p = (.error e, r3)) : r3.eisHead = r.eisHead := by
  unfold commitTree at h
  split at h
  next e2 hft =>
    have h2 : r = r3 := congrArg Prod.snd h
    subst h2; rfl
  next t2 hft =>
    split at h
    next e2 hfc =>
      have h2 : r = r3 := congrArg Prod.snd h
      subst h2; rfl
    next pc hfc =>
      split at h
      next e2 hs =>
        have h2 : r = r3 := congrArg Prod.snd h
        subst h2; rfl
      next s hs =>
        unfold gitCommit at h
        split at h
        next ho =>
          have h2 : r = r3 := congrArg Prod.snd h
          subst h2; rfl
        next ho =>
          split at h
          next hrf =>
            have h2 := congrArg Prod.snd h
            subst h2; rfl
          next hrf => simp at h

/-! ### Helper lemmas: small bridges -/

theorem resolveHead_ok {r : Repo} {hd : CommitId} :
    resolveHead r = .ok hd ↔ r.headTarget = some hd := by
  unfold resolveHead
  cases h : r.headTarget <;> simp

theorem findCommit_ok {r : Repo} {id : CommitId} {c : Commit} :
    findCommit r id = .ok c ↔ r.commits.lookup id = some c := by
  unfold findCommit
  cases h : r.commits.lookup id <;> simp

theorem lookup_cons_self {k : CommitId} {v : Commit} {g : List (CommitId × Commit)} :
    List.lookup k ((k, v) :: g) = some v := by
  simp [List.lookup]

theorem store_contains {ts : List TreeId} {t : TreeId} :
    (if ts.contains t = true then ts else t :: ts).contains t = true := by
  split
  next h => exact h
  next h => exact contains_iff_mem.mpr (List.mem_cons_self _ _)

/-- Consing a fresh commit onto the graph only grows every parent set. -/
theorem parentsOf_cons_fresh {g : List (CommitId × Commit)} {k : CommitId} {cm : Commit}
    (hk : g.lookup k = none) : ∀ c, parentsOf g c ⊆ parentsOf ((k, cm) :: g) c := by
  intro c x hx
  by_cases hkc : (c == k) = true
  · have hkc2 : c = k := by simpa using hkc
    subst hkc2
    unfold parentsOf at hx
    rw [hk] at hx
    simp at hx
  · have hf : (c == k) = false := by simpa using hkc
    unfold parentsOf
    have hl : List.lookup c ((k, cm) :: g) = List.lookup c g := by
      simp [List.lookup, hf]
    rw [hl]
    exact hx

/-- After committing a fresh commit whose sole parent is `eh`, every
ancestor of `eh` is an ancestor of the new commit. -/
theorem mem_ancestors_cons_parent {g : List (CommitId × Commit)} {k eh hd : CommitId}
    {cm : Commit} (hk : g.lookup k = none) (hp : cm.parents = [eh])
    (hm : hd ∈ ancestors g eh) : hd ∈ ancestors ((k, cm) :: g) k := by
  have h1 : hd ∈ iterAnc ((k, cm) :: g) (g.length + 1) [eh] :=
    iterAnc_graph_mono (parentsOf_cons_fresh hk) hm
  have h2 : [eh] ⊆ ancStep ((k, cm) :: g) [k] := by
    intro x hx
    have hx2 := List.mem_singleton.mp hx
    subst hx2
    apply List.mem_append_right
    refine List.mem_flatMap.mpr ⟨k, List.mem_singleton.mpr rfl, ?_⟩
    unfold parentsOf
    rw [lookup_cons_self]
    show _ ∈ cm.parents
    rw [hp]
    exact List.mem_singleton.mpr rfl
  have h3 : hd ∈ iterAnc ((k, cm) :: g) (g.length + 1) (ancStep ((k, cm) :: g) [k]) :=
    iterAnc_mono h2 h1
  exact h3

/-! ### The post-cycle stable state -/

/-- The invariant a successful cycle establishes: clean ephemeral index,
working object store, resolvable HEAD, a shadow pointer whose ancestor
set contains the checked-out commit, and — unless the working directory
is empty — a shadow commit whose tree is exactly the working directory
snapshot, with that tree already in the store. -/
def StableState (r : Repo) : Prop :=
  r.eisIndexFile = [] ∧ r.odbFails = false ∧
  ∃ hd eh, r.headTarget = some hd ∧ r.eisHead = some eh ∧
    mergeBase r.commits eh hd = .ok hd ∧
    (r.workdir = [] ∨
      ∃ cm, r.commits.lookup eh = some cm ∧ cm.tree = canonTree r.workdir ∧
        r.treeStore.contains (canonTree r.workdir) = true)

theorem watch_of_stable {r : Repo} (hs : StableState r) : watch r = (.ok (), r) := by
  obtain ⟨hclean, hodb, hd, eh, hht, heh, hmb, hrest⟩ := hs
  have hres : resolveHead r = .ok hd := resolveHead_ok.mpr hht
  have hcheck : checkIfEisHeadIsUpToDate r eh = .ok true := by
    simp [checkIfEisHeadIsUpToDate, hres, hmb]
  have hrep : repairPhase r = (.ok eh, r) := by
    simp [repairPhase, getEisHead, heh, hcheck]
  by_cases hw : r.workdir = []
  · have hct : createTree r = (.ok none, r) := by
      simp [createTree, hodb, hclean, hw, addAll_nil_left]
    simp [watch, snapshotPhase, hrep, hct]
  · rcases hrest with hw2 | ⟨cm, hcm, htree, hts⟩
    · exact absurd hw2 hw
    · have hstag : addAll r.eisIndexFile r.workdir = r.workdir := by
        rw [hclean]; exact addAll_nil_left
      have hct : createTree r = (.ok (some (canonTree r.workdir)), r) := by
        unfold createTree
        rw [if_neg (by simp [hodb]), hstag]
        rw [if_neg (by simp [List.isEmpty_iff, hw])]
        rw [if_pos hts]
        rw [← hclean]
      have hfc : findCommit r eh = .ok cm := findCommit_ok.mpr hcm
      simp [watch, snapshotPhase, compareAndCommit, hrep, hct, hfc, htree]

theorem stable_of_watch {r r' : Repo} (hclean : r.eisIndexFile = [])
    (hfresh : r.fresh) (hw : watch r = (.ok (), r')) : StableState r' := by
  unfold watch at hw
  split at hw
  next e r1 hrep => simp at hw
  next eh r1 hrep =>
    obtain ⟨hr1eis, hr1com, hr1ht, hr1wd, hr1idx, hr1ts, hr1sig, hr1odb, hr1ref,
      hr1nid, hr1ui, hr1br⟩ := repair_frame hrep
    obtain ⟨hd, hres, hmb⟩ := repair_mergeBase hrep
    have hht : r.headTarget = some hd := resolveHead_ok.mp hres
    unfold snapshotPhase at hw
    split at hw
    next e r2 hct => simp at hw
    next r2 hct =>
      have hr' : r2 = r' := congrArg Prod.snd hw
      subst hr'
      obtain ⟨hodb1, hcase⟩ := createTree_ok hct
      rcases hcase with ⟨-, hr2, hstaged⟩ | ⟨hsome, -, -⟩
      · subst hr2
        obtain ⟨hi, hwd⟩ := addAll_eq_nil hstaged
        refine ⟨hi, hodb1, hd, eh, ?_, hr1eis, ?_, Or.inl hwd⟩
        · rw [hr1ht]; exact hht
        · rw [hr1com]; exact hmb
      · exact absurd hsome (by simp)
    next tree r2 hct =>
      obtain ⟨hodb1, hcase⟩ := createTree_ok hct
      rcases hcase with ⟨hns, -, -⟩ | ⟨hsome, hne, hr2⟩
      · exact absurd hns (by simp)
      · injection hsome with hsome
        have hstag : addAll r1.eisIndexFile r1.workdir = r.workdir := by
          rw [hr1idx, hclean, addAll_nil_left, hr1wd]
        rw [hstag] at hsome hr2
        unfold compareAndCommit at hw
        split at hw
        next e hfc => simp at hw
        next c hfc =>
          split at hw
          next heq =>
            have hr' : r2 = r' := congrArg Prod.snd hw
            subst hr'
            subst hr2
            refine ⟨rfl, hodb1, hd, eh, ?_, ?_, ?_, Or.inr ⟨c, ?_, ?_, ?_⟩⟩
            · show r1.headTarget = some hd
              rw [hr1ht]; exact hht
            · show r1.eisHead = some eh
              exact hr1eis
            · show mergeBase r1.commits eh hd = .ok hd
              rw [hr1com]; exact hmb
            · show r1.commits.lookup eh = some c
              exact findCommit_ok.mp hfc
            · show c.tree = canonTree r1.workdir
              rw [hr1wd, ← heq, hsome]
            · show (if r1.treeStore.contains (canonTree r.workdir) = true then r1.treeStore
                    else canonTree r.workdir :: r1.treeStore).contains (canonTree r1.workdir)
                  = true
              rw [hr1wd]
              exact store_contains
          next hneq =>
            split at hw
            next e r3 hcmt => simp at hw
            next id r3 hcmt =>
              have hr' : r3 = r' := congrArg Prod.snd hw
              subst hr'
              obtain ⟨s, hsig, hid, hr3⟩ := commitTree_ok hcmt
              subst hr3
              have hr2com : r2.commits = r.commits := by
                rw [congrArg Repo.commits hr2]; exact hr1com
              have hr2nid : r2.nextId = r.nextId := by
                rw [congrArg Repo.nextId hr2]; exact hr1nid
              have hr2wd : r2.workdir = r.workdir := by
                rw [congrArg Repo.workdir hr2]; exact hr1wd
              refine ⟨?_, ?_, hd, r2.nextId, ?_, rfl, ?_, Or.inr ⟨_, lookup_cons_self, ?_, ?_⟩⟩
              · show r2.eisIndexFile = []
                rw [congrArg Repo.eisIndexFile hr2]
              · show r2.odbFails = false
                rw [congrArg Repo.odbFails hr2]; exact hodb1
              · show r2.headTarget = some hd
                rw [congrArg Repo.headTarget hr2, hr1ht]; exact hht
              · show mergeBase ((r2.nextId, ⟨tree, [eh], s, s, "eis commit"⟩) :: r2.commits)
                    r2.nextId hd = .ok hd
                apply mergeBase_of_mem
                rw [hr2com, hr2nid]
                exact mem_ancestors_cons_parent (fresh_lookup hfresh) rfl
                  (mem_of_mergeBase_ok hmb)
              · show (⟨tree, [eh], s, s, "eis commit"⟩ : Commit).tree = canonTree r2.workdir
                rw [hr2wd]
                exact hsome
              · show r2.treeStore.contains (canonTree r2.workdir) = true
                rw [congrArg Repo.treeStore hr2, hr2wd]
                exact store_contains

/-- Two consecutive cycles: a successful cycle from a clean state is a
fixpoint of `watch`. -/
theorem watch_fixpoint {r r' : Repo} (hclean : r.eisIndexFile = [])
    (hfresh : r.fresh) (hw : watch r = (.ok (), r')) : watch r' = (.ok (), r') :=
  watch_of_stable (stable_of_watch hclean hfresh hw)

/-- In a cycle that produced a snapshot tree, a new checkpoint commit is
created iff the tree differs from the tree of the commit the (repaired)
shadow pointer references. -/
theorem watch_commit_iff {r r' r1 r2 : Repo} {eh : CommitId} {t : TreeId} {c : Commit}
    (hrep : repairPhase r = (.ok eh, r1))
    (hct : createTree r1 = (.ok (some t), r2))
    (hfc : findCommit r2 eh = .ok c)
    (hw : watch r = (.ok (), r')) :
    (t = c.tree → r' = r2 ∧ r'.commits = r.commits) ∧
    (t ≠ c.tree → ∃ s, signature r2 = .ok s ∧
      r'.commits = (r2.nextId, ⟨t, [eh], s, s, "eis commit"⟩) :: r.commits ∧
      r'.eisHead = some r2.nextId ∧ r'.nextId = r.nextId + 1) := by
  have hw2 : snapshotPhase r1 eh = (.ok (), r') := by
    rw [← hw]; unfold watch; rw [hrep]
  have hw3 : compareAndCommit r2 eh t = (.ok (), r') := by
    rw [← hw2]; unfold snapshotPhase; rw [hct]
  obtain ⟨hcom2, -, -, -, -, -, -, -, -, hnid2⟩ := createTree_frame hct
  obtain ⟨-, hcom1, -, -, -, -, -, -, -, hnid1, -, -⟩ := repair_frame hrep
  unfold compareAndCommit at hw3
  split at hw3
  next e hfc2 =>
    rw [hfc] at hfc2
    exact absurd hfc2 (by simp)
  next c2 hfc2 =>
    rw [hfc] at hfc2
    injection hfc2 with hc2
    subst hc2
    split at hw3
    next hte =>
      have h2 : r2 = r' := congrArg Prod.snd hw3
      subst h2
      exact ⟨fun _ => ⟨rfl, by rw [hcom2, hcom1]⟩, fun hne => absurd hte hne⟩
    next hte =>
      split at hw3
      next e r3 hcm => simp at hw3
      next id r3 hcm =>
        have h2 : r3 = r' := congrArg Prod.snd hw3
        subst h2
        obtain ⟨s, hsig, hid, hr3⟩ := commitTree_ok hcm
        subst hr3
        refine ⟨fun hcontra => absurd hcontra hte, fun _ => ⟨s, hsig, ?_, rfl, ?_⟩⟩
        · show (r2.nextId, (⟨t, [eh], s, s, "eis commit"⟩ : Commit)) :: r2.commits
            = (r2.nextId, (⟨t, [eh], s, s, "eis commit"⟩ : Commit)) :: r.commits
          rw [hcom2, hcom1]
        · show r2.nextId + 1 = r.nextId + 1
          rw [hnid2, hnid1]

theorem repair_error_state {r : Repo} {e : GitError} {r1 : Repo}
    (h : repairPhase r = (.error e, r1)) : r1 = r := by
  unfold repairPhase getEisHead at h
  split at h
  next e0 hg =>
    split at h
    next e2 hc => exact (congrArg Prod.snd h).symm
    next hc => simp at h
    next hc =>
      unfold createEisHead at h
      split at h
      next e2 hh => exact (congrArg Prod.snd h).symm
      next hd hh => simp at h
  next hg =>
    unfold createEisHead at h
    split at h
    next e2 hh => exact (congrArg Prod.snd h).symm
    next hd hh => simp at h

theorem createTree_error_state {r : Repo} {e : GitError} {r2 : Repo}
    (h : createTree r = (.error e, r2)) : r2 = r := by
  unfold createTree at h
  split at h
  next ho => exact (congrArg Prod.snd h).symm
  next ho =>
    split at h
    next he => simp at h
    next he => simp at h

/-- A cycle over an empty working directory with a clean ephemeral index
leaves the commit store, the working directory and the ephemeral index
untouched, whatever the cycle's outcome. -/
theorem watch_empty_state {r : Repo} (hwd : r.workdir = []) (hcl : r.eisIndexFile = []) :
    (watch r).2.commits = r.commits ∧ (watch r).2.workdir = [] ∧
    (watch r).2.eisIndexFile = [] := by
  rcases hrep : repairPhase r with ⟨q1, r1⟩
  cases q1 with
  | error e =>
    have h1 := repair_error_state hrep
    have hw1 : watch r = (.error e, r1) := by unfold watch; rw [hrep]
    rw [hw1, h1]
    exact ⟨rfl, hwd, hcl⟩
  | ok eh =>
    have hw1 : watch r = snapshotPhase r1 eh := by unfold watch; rw [hrep]
    rw [hw1]
    obtain ⟨-, hcom1, -, hwd1, hidx1, -, -, -, -, -, -, -⟩ := repair_frame hrep
    have hstag : addAll r1.eisIndexFile r1.workdir = [] := by
      rw [hidx1, hcl, addAll_nil_left, hwd1, hwd]
    rcases hct : createTree r1 with ⟨q2, r2⟩
    cases q2 with
    | error e =>
      have h1 := createTree_error_state hct
      have hw2 : snapshotPhase r1 eh = (.error e, r2) := by unfold snapshotPhase; rw [hct]
      rw [hw2, h1]
      refine ⟨by rw [hcom1], by rw [hwd1, hwd], by rw [hidx1, hcl]⟩
    | ok res =>
      obtain ⟨hodb1, hcase⟩ := createTree_ok hct
      cases res with
      | none =>
        have hw2 : snapshotPhase r1 eh = (.ok (), r2) := by unfold snapshotPhase; rw [hct]
        rw [hw2]
        rcases hcase with ⟨-, hr2, -⟩ | ⟨hsome, -, -⟩
        · subst hr2
          refine ⟨by rw [hcom1], by rw [hwd1, hwd], by rw [hidx1, hcl]⟩
        · exact absurd hsome (by simp)
      | some t =>
        rcases hcase with ⟨hns, -, -⟩ | ⟨-, hne, -⟩
        · exact absurd hns (by simp)
        · exact absurd hstag hne

/-- Running any number of cycles over an empty working directory never
adds a commit. -/
theorem runCycles_commits {n : Nat} :
    ∀ {r : Repo}, r.workdir = [] → r.eisIndexFile = [] →
      (runCycles n r).2.commits = r.commits := by
  induction n with
  | zero => intro r _ _; rfl
  | succ n ih =>
    intro r hwd hcl
    unfold runCycles
    rcases hw : watch r with ⟨q, r1⟩
    have hst := watch_empty_state hwd hcl
    rw [hw] at hst
    cases q with
    | ok u =>
      rw [ih hst.2.1 hst.2.2]
      exact hst.1
    | error e => exact hst.1

/-! ### Helper lemmas: the summarizer walk -/

theorem parentCommit_ok {r : Repo} {c : Commit} {i : Nat} {pid : CommitId} {pc : Commit}
    (h : parentCommit r c i = .ok (pid, pc)) :
    c.parents.get? i = some pid ∧ r.commits.lookup pid = some pc := by
  unfold parentCommit at h
  split at h
  next hg => exact Except.noConfusion h
  next pid2 hg =>
    split at h
    next pc2 hl =>
      injection h with h
      have h1 : pid2 = pid := congrArg Prod.fst h
      have h2 : pc2 = pc := congrArg Prod.snd h
      subst h1
      subst h2
      exact ⟨hg, hl⟩
    next hl => exact Except.noConfusion h

theorem summarizeWalk_ok {r : Repo} :
    ∀ {n : Nat} {cid : CommitId} {c : Commit} {l : List CommitId},
      summarizeWalk r n cid c = .ok l → r.commits.lookup cid = some c →
      l.length = n ∧ chainOk r l = true ∧ (0 < n → l.head? = some cid) ∧
      ∀ id ∈ l, ∃ cm, r.commits.lookup id = some cm ∧ cm.parents ≠ [] := by
  intro n
  induction n with
  | zero =>
    intro cid c l h hcid
    unfold summarizeWalk at h
    injection h with h
    subst h
    exact ⟨rfl, rfl, fun hlt => absurd hlt (by simp), fun id hid => absurd hid (by simp)⟩
  | succ n ih =>
    intro cid c l h hcid
    unfold summarizeWalk at h
    split at h
    next e hp => exact Except.noConfusion h
    next pid pc hp =>
      split at h
      next e hw2 => exact Except.noConfusion h
      next rest hw2 =>
        injection h with h
        subst h
        obtain ⟨hg, hlp⟩ := parentCommit_ok hp
        obtain ⟨hlen, hchain, hhead, hall⟩ := ih hw2 hlp
        have hparents : c.parents ≠ [] := by
          intro hnil
          rw [hnil] at hg
          simp at hg
        refine ⟨by simp [hlen], ?_, fun _ => rfl, ?_⟩
        · cases hrest : rest with
          | nil => rfl
          | cons b tb =>
            have hn : 0 < n := by
              rw [← hlen, hrest]
              simp
            have hb : b = pid := by
              have hh := hhead hn
              rw [hrest] at hh
              simpa using hh
            rw [hrest] at hchain
            show (stepOk r cid b && chainOk r (b :: tb)) = true
            rw [Bool.and_eq_true]
            refine ⟨?_, hchain⟩
            unfold stepOk
            simp only [hcid]
            rw [hg, hb]
            simp
        · intro id hid
          rcases List.mem_cons.mp hid with hid1 | hmem
          · subst hid1
            exact ⟨c, hcid, hparents⟩
          · exact hall id hmem

theorem summarizeWalk_root_error {r : Repo} :
    ∀ {k : Nat} {n : Nat} {cid : CommitId} {c : Commit} {did : CommitId} {d : Commit},
      reachAfter r k cid c = .ok (did, d) → k < n → d.parents = [] →
      ∃ e, summarizeWalk r n cid c = .error e := by
  intro k
  induction k with
  | zero =>
    intro n cid c did d hreach hkn hroot
    unfold reachAfter at hreach
    injection hreach with h
    have hc : c = d := congrArg Prod.snd h
    subst hc
    cases n with
    | zero => simp at hkn
    | succ m =>
      have hpc : parentCommit r c (chosenParentIndex c) = .error .commitNotFound := by
        unfold parentCommit
        rw [hroot]
        simp
      refine ⟨.commitNotFound, ?_⟩
      unfold summarizeWalk
      simp only [hpc]
  | succ k ih =>
    intro n cid c did d hreach hkn hroot
    unfold reachAfter at hreach
    split at hreach
    next e hp => exact Except.noConfusion hreach
    next pid pc hp =>
      cases n with
      | zero => simp at hkn
      | succ m =>
        have hkm : k < m := by omega
        obtain ⟨e, he⟩ := ih hreach hkm hroot
        refine ⟨e, ?_⟩
        unfold summarizeWalk
        simp only [hp, he]

/-! ### Concrete repositories for witnesses and counterexamples -/

instance {ε α : Type} [DecidableEq ε] [DecidableEq α] : DecidableEq (Except ε α) := fun a b =>
  match a, b with
  | .ok x, .ok y =>
    if h : x = y then .isTrue (by rw [h])
    else .isFalse (fun hc => h (by injection hc))
  | .error x, .error y =>
    if h : x = y then .isTrue (by rw [h])
    else .isFalse (fun hc => h (by injection hc))
  | .ok _, .error _ => .isFalse (fun hc => Except.noConfusion hc)
  | .error _, .ok _ => .isFalse (fun hc => Except.noConfusion hc)

def sig0 : Signature := ⟨"dev", "dev@host"⟩

def baseCommit : Commit := ⟨[], [], sig0, sig0, "init"⟩

/-- A healthy repository: user commit `0` checked out, no shadow pointer
yet, one trackable file in the working directory. -/
def rex : Repo :=
  { commits := [(0, baseCommit)], treeStore := [[]], nextId := 1,
    headTarget := some 0, eisHead := none,
    userIndex := [], eisIndexFile := [], workdir := [("f", "a")],
    branches := [("main", 0)], sig := some sig0,
    odbFails := false, refUpdateFails := false }

/-- A repository with an unborn HEAD: every reconciliation cycle fails
with `RefResolutionFailure`. -/
def rbad : Repo :=
  { commits := [], treeStore := [], nextId := 0,
    headTarget := none, eisHead := none,
    userIndex := [], eisIndexFile := [], workdir := [],
    branches := [], sig := none,
    odbFails := false, refUpdateFails := false }

/-- Like `rex` but with a shadow pointer and a stored snapshot tree, so
`commitTree` can run directly. -/
def rcommit : Repo :=
  { rex with eisHead := some 0, treeStore := [[("f", "a")], []] }

/-- Like `rcommit` but the reference update fails. -/
def rreffail : Repo :=
  { rcommit with refUpdateFails := true }

/-- Like `rex` with an empty working directory. -/
def rempty : Repo :=
  { rex with workdir := [] }

/-- A checkpoint chain `0 ← 1 ← ⋯ ← 11` with the shadow pointer at 11:
long enough for a full 10-step summarizer walk. -/
def rchain : Repo :=
  { commits :=
      ((List.range 11).map
        (fun i => (i + 1, (⟨[], [i], sig0, sig0, "eis commit"⟩ : Commit)))).reverse
      ++ [(0, baseCommit)],
    treeStore := [[]], nextId := 12,
    headTarget := some 0, eisHead := some 11,
    userIndex := [], eisIndexFile := [], workdir := [],
    branches := [("main", 0)], sig := some sig0,
    odbFails := false, refUpdateFails := false }

/-- A short checkpoint chain `0 ← 1 ← 2 ← 3` with the shadow pointer at
3: the summarizer walk reaches the parentless root before 10 steps. -/
def rshort : Repo :=
  { commits :=
      ((List.range 3).map
        (fun i => (i + 1, (⟨[], [i], sig0, sig0, "eis commit"⟩ : Commit)))).reverse
      ++ [(0, baseCommit)],
    treeStore := [[]], nextId := 4,
    headTarget := some 0, eisHead := some 3,
    userIndex := [], eisIndexFile := [], workdir := [],
    branches := [("main", 0)], sig := some sig0,
    odbFails := false, refUpdateFails := false }

/-! ### The claims -/

/-- C1: in any cycle that produced a snapshot tree, a new checkpoint
commit is created if and only if that tree differs from the tree of the
commit EIS_HEAD references at comparison time (when equal, the state is
returned untouched; when different, exactly one commit with that tree is
prepended and the pointer advances); consequently a second cycle run
immediately after a successful one — same working-directory content, so
an identical snapshot tree — is a no-op: it creates no second checkpoint
commit and leaves the state fixed. -/
theorem C1_checkpoint_iff_tree_differs :
    (∀ r r' r1 r2 eh t c,
      repairPhase r = (.ok eh, r1) →
      createTree r1 = (.ok (some t), r2) →
      findCommit r2 eh = .ok c →
      watch r = (.ok (), r') →
      ((t = c.tree → r' = r2 ∧ r'.commits = r.commits) ∧
       (t ≠ c.tree → ∃ s, signature r2 = .ok s ∧
         r'.commits = (r2.nextId, ⟨t, [eh], s, s, "eis commit"⟩) :: r.commits ∧
         r'.eisHead = some r2.nextId ∧ r'.nextId = r.nextId + 1))) ∧
    (∀ r r', r.eisIndexFile = [] → r.fresh → watch r = (.ok (), r') →
      watch r' = (.ok (), r')) :=
  ⟨fun _ _ _ _ _ _ _ hrep hct hfc hw => watch_commit_iff hrep hct hfc hw,
   fun _ _ hclean hfresh hw => watch_fixpoint hclean hfresh hw⟩

/-- C1 witness: from the concrete repository `rex` the first cycle
commits; running the cycle again on the resulting state succeeds and is
a fixpoint — no second checkpoint commit. -/
theorem C1_witness : watch (watch rex).2 = (.ok (), (watch rex).2) :=
  C1_checkpoint_iff_tree_differs.2 rex (watch rex).2 rfl (by decide) rfl

/-- C2: the shadow pointer is consistent with the checked-out position
iff the merge base of the shadow commit and the checked-out commit is
the checked-out commit itself; and whenever the pointer is absent or
inconsistent, the repair phase — which runs before any snapshot is
built, compared, or committed — repoints EIS_HEAD to exactly the
checked-out commit. -/
theorem C2_ancestry_repair :
    (∀ r e, checkIfEisHeadIsUpToDate r e = .ok true ↔
      ∃ hd, resolveHead r = .ok hd ∧ mergeBase r.commits e hd = .ok hd) ∧
    (∀ r hd, resolveHead r = .ok hd →
      (r.eisHead = none ∨
        ∃ e0, r.eisHead = some e0 ∧ checkIfEisHeadIsUpToDate r e0 = .ok false) →
      repairPhase r = (.ok hd, { r with eisHead := some hd })) := by
  refine ⟨fun r e => check_true_iff, fun r hd hres habs => ?_⟩
  unfold repairPhase getEisHead
  rcases habs with hnone | ⟨e0, he0, hfalse⟩
  · simp only [hnone]
    unfold createEisHead
    simp only [hres]
  · simp only [he0, hfalse]
    unfold createEisHead
    simp only [hres]

/-- C2 witness: `rex` has no shadow pointer; its repair phase repoints
EIS_HEAD to exactly the checked-out commit 0. -/
theorem C2_witness : repairPhase rex = (.ok 0, { rex with eisHead := some 0 }) :=
  C2_ancestry_repair.2 rex 0 rfl (Or.inl rfl)

/-- C3 counterexample: on `rbad` the cycle fails, and the daemon loop
body (`watcher.watch()?`) terminates the daemon with that error instead
of continuing to the next tick — refuting "a per-cycle error never
terminates the background daemon process". -/
theorem C3_counterexample :
    (watch rbad).1 = .error .unbornHead ∧
    daemonStep rbad = .exitDaemon .unbornHead rbad :=
  ⟨rfl, rfl⟩

/-- C3 (amended): one iteration of the running daemon loop continues to
the next tick exactly when the cycle succeeds; a failed cycle propagates
its error out of the loop (the `?` operator), terminating the daemon
process — the failure is not logged-and-skipped. -/
theorem C3_cycle_failure_terminates_loop :
    ∀ r, (∀ u r1, watch r = (.ok u, r1) → daemonStep r = .continueLoop r1) ∧
         (∀ e r1, watch r = (.error e, r1) → daemonStep r = .exitDaemon e r1) := by
  intro r
  constructor
  · intro u r1 hw
    unfold daemonStep
    rw [hw]
  · intro e r1 hw
    unfold daemonStep
    rw [hw]

/-- C3 witness: the amended behaviour at the concrete failing repository
`rbad`: the loop iteration exits the daemon. -/
theorem C3_witness : daemonStep rbad = .exitDaemon .unbornHead rbad :=
  (C3_cycle_failure_terminates_loop rbad).2 .unbornHead rbad rfl

/-- C4 counterexample: on `rbad` the final cycle run by the interrupt
handler fails, the `unwrap` panics on the handler thread, and
`process::exit(0)` is never reached — the handler does not terminate the
process, refuting "the process terminates even when that final cycle
fails". -/
theorem C4_counterexample :
    (watch rbad).1 = .error .unbornHead ∧ ctrlcHandler rbad = .panicked rbad :=
  ⟨rfl, rfl⟩

/-- C4 (amended): on an interrupt the handler performs exactly one
additional synchronous cycle; when that cycle succeeds the handler exits
the process with status 0; when it fails the handler panics before
reaching the exit call (the failure is not retried, and the handler
performs no exit). -/
theorem C4_final_cycle_then_exit :
    ∀ r, (∀ u r1, watch r = (.ok u, r1) → ctrlcHandler r = .exited 0 r1) ∧
         (∀ e r1, watch r = (.error e, r1) → ctrlcHandler r = .panicked r1) := by
  intro r
  constructor
  · intro u r1 hw
    unfold ctrlcHandler
    rw [hw]
  · intro e r1 hw
    unfold ctrlcHandler
    rw [hw]

/-- C4 witness: the amended behaviour at the concrete repository `rex`,
whose final cycle succeeds: the handler exits with status 0. -/
theorem C4_witness : ctrlcHandler rex = .exited 0 (watch rex).2 :=
  (C4_final_cycle_then_exit rex).1 () (watch rex).2 rfl

/-- C5: every checkpoint commit `commit_tree` creates has exactly one
parent — the `parent` argument, which in `watch` is the shadow pointer's
value at commit time (the repaired pointer, unchanged by the snapshot
phase) — one fixed identity as both author and committer, and the fixed
marker message "eis commit". -/
theorem C5_commit_shape :
    (∀ r t p id r3, commitTree r t p = (.ok id, r3) →
      ∃ s, signature r = .ok s ∧
        r3.commits.lookup id = some ⟨t, [p], s, s, "eis commit"⟩) ∧
    (∀ r eh r1 q r2, repairPhase r = (.ok eh, r1) → createTree r1 = (q, r2) →
      r2.eisHead = some eh) := by
  constructor
  · intro r t p id r3 h
    obtain ⟨s, hs, hid, hr3⟩ := commitTree_ok h
    subst hr3
    subst hid
    exact ⟨s, hs, lookup_cons_self⟩
  · intro r eh r1 q r2 hrep hct
    rw [(createTree_frame hct).2.1]
    exact (repair_frame hrep).1

/-- C5 witness: the concrete commit created on `rcommit` has exactly
parent 0, author = committer = the repository signature, and the marker
message. -/
theorem C5_witness :
    ∃ s, signature rcommit = .ok s ∧
      ((commitTree rcommit [("f", "a")] 0).2).commits.lookup 1 =
        some ⟨[("f", "a")], [0], s, s, "eis commit"⟩ :=
  C5_commit_shape.1 rcommit [("f", "a")] 0 1 (commitTree rcommit [("f", "a")] 0).2 rfl

/-- C6: when creating the checkpoint commit fails — at any stage,
including a reference update that fails after the commit object was
written — the shadow pointer is left unchanged; on success the shadow
pointer references exactly the newly written commit, which exists in the
object store. The reference is only ever moved to a commit that has been
durably created. -/
theorem C6_ref_update_after_commit :
    ∀ r t p,
      (∀ e r3, commitTree r t p = (.error e, r3) → r3.eisHead = r.eisHead) ∧
      (∀ id r3, commitTree r t p = (.ok id, r3) →
        r3.eisHead = some id ∧ (r3.commits.lookup id).isSome = true) := by
  intro r t p
  constructor
  · intro e r3 h
    exact commitTree_error_eisHead h
  · intro id r3 h
    obtain ⟨s, hs, hid, hr3⟩ := commitTree_ok h
    subst hr3
    subst hid
    refine ⟨rfl, ?_⟩
    rw [lookup_cons_self]
    rfl

/-- C6 witness: on `rreffail` the reference update fails after the
commit object is written; the shadow pointer is unchanged. -/
theorem C6_witness :
    ((commitTree rreffail [("f", "a")] 0).2).eisHead = rreffail.eisHead :=
  (C6_ref_update_after_commit rreffail [("f", "a")] 0).1 .refUpdateFailed
    (commitTree rreffail [("f", "a")] 0).2 rfl

/-- C7: the snapshot builder returns a tree identity iff the staged set
is non-empty and absent iff it is empty; a cycle whose snapshot is
absent performs no comparison and creates no commit; and over a working
directory with no trackable files (and a clean ephemeral index, as
established at initialization and after every cycle) no checkpoint
commit is ever created across any number of cycles. -/
theorem C7_snapshot_none_iff_empty :
    (∀ r res r2, createTree r = (.ok res, r2) →
      ((res = none ↔ addAll r.eisIndexFile r.workdir = []) ∧
       (addAll r.eisIndexFile r.workdir ≠ [] →
         res = some (canonTree (addAll r.eisIndexFile r.workdir))))) ∧
    (∀ r r' eh r1 r2, repairPhase r = (.ok eh, r1) → createTree r1 = (.ok none, r2) →
      watch r = (.ok (), r') → r' = r2 ∧ r'.commits = r.commits) ∧
    (∀ n r, r.workdir = [] → r.eisIndexFile = [] →
      (runCycles n r).2.commits = r.commits) := by
  refine ⟨?_, ?_, fun n r hwd hcl => runCycles_commits hwd hcl⟩
  · intro r res r2 h
    obtain ⟨-, hcase⟩ := createTree_ok h
    constructor
    · constructor
      · intro hn
        rcases hcase with ⟨-, -, hstag⟩ | ⟨hsome, -, -⟩
        · exact hstag
        · rw [hn] at hsome
          exact absurd hsome.symm (by simp)
      · intro hstag
        rcases hcase with ⟨hn, -, -⟩ | ⟨-, hne, -⟩
        · exact hn
        · exact absurd hstag hne
    · intro hne
      rcases hcase with ⟨-, -, hstag⟩ | ⟨hsome, -, -⟩
      · exact absurd hstag hne
      · exact hsome
  · intro r r' eh r1 r2 hrep hct hw
    have hwa : watch r = snapshotPhase r1 eh := by
      unfold watch
      rw [hrep]
    have hw1 : watch r = (.ok (), r2) := by
      rw [hwa]
      unfold snapshotPhase
      rw [hct]
    have h2 : r' = r2 := congrArg Prod.snd (hw.symm.trans hw1)
    subst h2
    refine ⟨rfl, ?_⟩
    rw [(createTree_frame hct).1, (repair_frame hrep).2.1]

/-- C7 witness: three cycles over `rempty`, whose working directory has
no trackable files, create no commit. -/
theorem C7_witness : (runCycles 3 rempty).2.commits = rempty.commits :=
  C7_snapshot_none_iff_empty.2.2 3 rempty rfl rfl

/-- C8: every invocation of the snapshot builder works on the ephemeral
index (a structure distinct from the user's real index), leaves that
structure empty for the next cycle, and does not modify the user's real
staging area, branches, commit store, HEAD, or the shadow pointer. -/
theorem C8_ephemeral_index_frame :
    ∀ r res r2, createTree r = (.ok res, r2) →
      r2.eisIndexFile = [] ∧ r2.userIndex = r.userIndex ∧ r2.branches = r.branches ∧
      r2.commits = r.commits ∧ r2.headTarget = r.headTarget ∧ r2.eisHead = r.eisHead := by
  intro r res r2 h
  obtain ⟨-, hcase⟩ := createTree_ok h
  rcases hcase with ⟨-, hr2, hstag⟩ | ⟨-, -, hr2⟩
  · subst hr2
    exact ⟨(addAll_eq_nil hstag).1, rfl, rfl, rfl, rfl, rfl⟩
  · subst hr2
    exact ⟨rfl, rfl, rfl, rfl, rfl, rfl⟩

/-- C8 witness: one snapshot over `rex` leaves the ephemeral index empty
and the user-visible state untouched. -/
theorem C8_witness :
    (createTree rex).2.eisIndexFile = [] ∧
    (createTree rex).2.userIndex = rex.userIndex ∧
    (createTree rex).2.branches = rex.branches ∧
    (createTree rex).2.commits = rex.commits ∧
    (createTree rex).2.headTarget = rex.headTarget ∧
    (createTree rex).2.eisHead = rex.eisHead :=
  C8_ephemeral_index_frame rex (some [("f", "a")]) (createTree rex).2 rfl

/-- C9: `summarize` renders at most the configured limit of 10 commits
regardless of history length, each step of the rendered sequence follows
the second parent when the commit has more than one parent and the sole
parent otherwise, and the repository state — shadow pointer and commits
included — is returned unchanged. -/
theorem C9_bounded_readonly_walk :
    ∀ r res r', summarize r = (res, r') →
      r' = r ∧ ∀ l, res = .ok l → l.length ≤ 10 ∧ chainOk r l = true := by
  intro r res r' h
  unfold summarize at h
  split at h
  next heh =>
    have h1 := congrArg Prod.fst h
    have h2 := congrArg Prod.snd h
    refine ⟨h2.symm, ?_⟩
    intro l hres
    rw [hres] at h1
    injection h1 with h1
    rw [← h1]
    exact ⟨by simp, rfl⟩
  next eh heh =>
    split at h
    next hlk =>
      have h1 := congrArg Prod.fst h
      have h2 := congrArg Prod.snd h
      refine ⟨h2.symm, ?_⟩
      intro l hres
      rw [hres] at h1
      exact Except.noConfusion h1
    next c hlk =>
      have h1 := congrArg Prod.fst h
      have h2 := congrArg Prod.snd h
      refine ⟨h2.symm, ?_⟩
      intro l hres
      rw [hres] at h1
      obtain ⟨hlen, hchain, -, -⟩ := summarizeWalk_ok h1 hlk
      exact ⟨by rw [hlen], hchain⟩

/-- C9 witness: on the 12-commit chain `rchain` the walk renders exactly
the 10 commits 11..2, the chain follows the parent rule, and the state
is unchanged. -/
theorem C9_witness :
    (summarize rchain).2 = rchain ∧
    ([11, 10, 9, 8, 7, 6, 5, 4, 3, 2] : List CommitId).length ≤ 10 ∧
    chainOk rchain [11, 10, 9, 8, 7, 6, 5, 4, 3, 2] = true :=
  have h := C9_bounded_readonly_walk rchain (summarize rchain).1 (summarize rchain).2 rfl
  ⟨h.1, h.2 [11, 10, 9, 8, 7, 6, 5, 4, 3, 2] (by decide)⟩

/-- C10: if the backward walk reaches a parentless root commit in fewer
than 10 steps, `summarize` returns an error rather than stopping the
walk early; and when `summarize` succeeds with a shadow pointer present,
it visited exactly 10 commits, every one of which has at least one
parent. -/
theorem C10_root_error :
    (∀ r eh c k did d, r.eisHead = some eh → r.commits.lookup eh = some c →
      reachAfter r k eh c = .ok (did, d) → k < 10 → d.parents = [] →
      ∃ e, (summarize r).1 = .error e) ∧
    (∀ r eh l, r.eisHead = some eh → (summarize r).1 = .ok l →
      l.length = 10 ∧ ∀ id ∈ l, ∃ cm, r.commits.lookup id = some cm ∧ cm.parents ≠ []) := by
  constructor
  · intro r eh c k did d heh hlk hreach hk hroot
    obtain ⟨e, he⟩ := summarizeWalk_root_error hreach hk hroot
    refine ⟨e, ?_⟩
    simp only [summarize, heh, hlk, he]
  · intro r eh l heh hok
    cases hlk : r.commits.lookup eh with
    | none =>
      simp only [summarize, heh, hlk] at hok
      exact Except.noConfusion hok
    | some c =>
      have hwk : summarizeWalk r 10 eh c = .ok l := by
        simp only [summarize, heh, hlk] at hok
        exact hok
      obtain ⟨hlen, -, -, hall⟩ := summarizeWalk_ok hwk hlk
      exact ⟨hlen, hall⟩

/-- C10 witness: on `rshort` the walk reaches the parentless root 0
after 3 steps, and `summarize` returns an error. -/
theorem C10_witness : ∃ e, (summarize rshort).1 = .error e :=
  C10_root_error.1 rshort 3 ⟨[], [2], sig0, sig0, "eis commit"⟩ 3 0 baseCommit
    rfl rfl rfl (by decide) rfl

end CodeWatch
